import Mathlib

/-!
Verification of the affiliation-classification and record-extraction pipeline
of `pubmed_cli/__main__.py`.

Python strings are embedded as `List Char`. The pure helpers of the source
(`contains_keyword`, the `EMAIL_REGEX` search, `str.strip`, `str.lower`,
Python's `x or d` defaulting and truthiness tests on optional strings) are
translated below, followed by the record model and `extract_papers`.
-/

/-- A Python string, embedded as its list of characters. -/
abbrev Str := List Char

/-- Python `s.lower()`; casing is per character (the source's keywords and all
classification-relevant text are basic latin). -/
def pyLower (s : Str) : Str := s.map Char.toLower

/-- The per-character ASCII upper-case map. It agrees with Python
`str.upper()` exactly on ASCII strings; Python's full case mapping also
changes and even expands some non-ASCII characters (see `fullUpperChar`). -/
def asciiUpper (s : Str) : Str := s.map Char.toUpper

/-- Modelled from the spec: the `upper(T)` of the case-insensitivity
property is Python `str.upper()`, i.e. Unicode full upper-case mapping,
which is per character but may expand one character into several. The table
covers the expanding Latin characters (the sharp s and the ff/fi/fl/ffi/ffl/
long-st/st ligatures); it is exact on those and on ASCII, the only
characters any statement below evaluates it on; other characters fall back
to the simple ASCII map. -/
def fullUpperChar (c : Char) : Str :=
  if c = 'ß' then "SS".data
  else if c = 'ﬀ' then "FF".data
  else if c = 'ﬁ' then "FI".data
  else if c = 'ﬂ' then "FL".data
  else if c = 'ﬃ' then "FFI".data
  else if c = 'ﬄ' then "FFL".data
  else if c = 'ﬅ' then "ST".data
  else if c = 'ﬆ' then "ST".data
  else [c.toUpper]

/-- Python `s.upper()`: full case mapping, concatenated per character. -/
def pyUpperFull (s : Str) : Str := s.flatMap fullUpperChar

/-- The ASCII whitespace characters removed by Python `str.strip()`. -/
def pyIsSpace (c : Char) : Bool :=
  c == ' ' || c == '\t' || c == '\n' || c == '\r' || c == '\x0b' || c == '\x0c'

/-- Leading-whitespace removal, the left half of Python `str.strip()`. -/
def lstrip (s : Str) : Str := s.dropWhile pyIsSpace

/-- Trailing-whitespace removal, the right half of Python `str.strip()`. -/
def rstrip (s : Str) : Str := (s.reverse.dropWhile pyIsSpace).reverse

/-- Python `s.strip()`: remove leading and trailing whitespace. -/
def pyStrip (s : Str) : Str := rstrip (lstrip s)

/-- Python `x or d` for an optional string `x`: the default is taken when `x`
is `None` or empty (falsy). -/
def pyOr (o : Option Str) (d : Str) : Str :=
  match o with
  | some s => if s.isEmpty then d else s
  | none => d

/-- Python truthiness of an optional string: `True` exactly for a present,
non-empty value. -/
def truthy (o : Option Str) : Bool :=
  match o with
  | some s => !s.isEmpty
  | none => false

/-- Boolean prefix test, the inner step of Python's substring operator. -/
def isPrefixB : Str → Str → Bool
  | [], _ => true
  | _ :: _, [] => false
  | a :: as, b :: bs => a == b && isPrefixB as bs

/-- Python `needle in hay`: contiguous substring containment. -/
def containsSub : Str → Str → Bool
  | [], needle => isPrefixB needle []
  | c :: t, needle => isPrefixB needle (c :: t) || containsSub t needle

/-- `contains_keyword` of the source: case-insensitive substring match of any
keyword against the text. -/
def contains_keyword (text : Str) (keywords : List Str) : Bool :=
  let lower := pyLower text
  keywords.any fun k => containsSub lower (pyLower k)

/-- `ACADEMIC_KEYWORDS` of the source. -/
def ACADEMIC_KEYWORDS : List Str :=
  ["university".data, "college".data, "institute".data, "school of".data,
   "department of".data, "faculty of".data, "research center".data,
   "centre for".data, "hospital".data, "medical center".data, "clinic".data]

/-- `COMPANY_KEYWORDS` of the source. -/
def COMPANY_KEYWORDS : List Str :=
  ["inc".data, "ltd".data, "llc".data, "gmbh".data, "corporation".data,
   "corp".data, "pharma".data, "biotech".data, "biotechnology".data,
   "technologies".data, "systems".data, "bio".data, "laboratories".data,
   "laboratory".data, "sas".data, "sa".data, "nv".data, "ab".data,
   "co.".data, "ag".data]

/-- Character class `[A-Za-z0-9._%+-]`, the local part of `EMAIL_REGEX`. -/
def charA (c : Char) : Bool :=
  c.isAlpha || c.isDigit || c == '.' || c == '_' || c == '%' || c == '+' || c == '-'

/-- Character class `[A-Za-z0-9.-]`, the domain body of `EMAIL_REGEX`. -/
def charB (c : Char) : Bool :=
  c.isAlpha || c.isDigit || c == '.' || c == '-'

/-- Backtracking for the regex tail `[A-Za-z0-9.-]+\.[A-Za-z]{2,}`: the greedy
`+` tries the longest candidate length first and backs off one character at a
time, exactly as the regex engine does; `{2,}` then takes the maximal
alphabetic run and succeeds when it has at least two characters. -/
def tryDomainLen (l : Str) : Nat → Option Str
  | 0 => none
  | j + 1 =>
    if (l.take (j + 1)).all charB then
      match l.drop (j + 1) with
      | '.' :: tail =>
        let cpart := tail.takeWhile Char.isAlpha
        if 2 ≤ cpart.length then some (l.take (j + 1) ++ '.' :: cpart)
        else tryDomainLen l j
      | _ => tryDomainLen l j
    else tryDomainLen l j

/-- Match of the regex tail `[A-Za-z0-9.-]+\.[A-Za-z]{2,}` at the start of
`l`, starting from the maximal run the greedy `+` first consumes. -/
def tryDomain (l : Str) : Option Str :=
  tryDomainLen l (l.takeWhile charB).length

/-- Match of the whole `EMAIL_REGEX` pattern anchored at the start of `l`.
`[A-Za-z0-9._%+-]+` must consume the maximal run: `@` is not in the class, so
any shorter greedy candidate is followed by a class character, never `@`. -/
def matchEmailAt (l : Str) : Option Str :=
  let apart := l.takeWhile charA
  if apart.isEmpty then none
  else
    match l.drop apart.length with
    | '@' :: rest =>
      match tryDomain rest with
      | some d => some (apart ++ '@' :: d)
      | none => none
    | _ => none

/-- `EMAIL_REGEX.search`: the match at the leftmost starting position wins. -/
def emailSearch : Str → Option Str
  | [] => none
  | c :: rest =>
    match matchEmailAt (c :: rest) with
    | some m => some m
    | none => emailSearch rest

example : emailSearch "Acme Biotech Inc, contact: jane@acme.com".data
    = some "jane@acme.com".data := by decide
example : emailSearch "x y@z.ab tail".data = some "y@z.ab".data := by decide
example : emailSearch "no email here".data = none := by decide
example : contains_keyword "Harvard UNIVERSITY".data ACADEMIC_KEYWORDS = true := by decide
example : contains_keyword "Acme Biotech Inc".data ACADEMIC_KEYWORDS = false := by decide
example : contains_keyword "Agriculture dept".data COMPANY_KEYWORDS = true := by decide

/-!
The record model: what `extract_papers` reads from one `PubmedArticle` element
after `ET.fromstring`. `findtext` yields `none` for a missing element and the
element's text otherwise; XML parsing itself is outside the embedding, so the
raw batch arrives as an `Except`, `.error` standing for the `ParseError` that
`ET.fromstring` raises on fundamentally malformed input.
-/

/-- The `PubDate` element: optional `Year`, `Month`, `Day`, `MedlineDate`. -/
structure RawPubDate where
  year : Option Str
  month : Option Str
  day : Option Str
  medline : Option Str
deriving DecidableEq

/-- One `Author` element: optional name parts and the text contents of its
`AffiliationInfo/Affiliation` elements (`none` when an element has no text). -/
structure RawAuthor where
  lastName : Option Str
  foreName : Option Str
  affiliations : List (Option Str)
deriving DecidableEq

/-- One `PubmedArticle` element as read by `extract_papers`. -/
structure RawArticle where
  pmid : Option Str
  articleTitle : Option Str
  pubDate : Option RawPubDate
  authors : List RawAuthor
deriving DecidableEq

/-- One entry of `authors_info`: display name and stripped affiliations. -/
structure AuthorInfo where
  name : Str
  affiliations : List Str
deriving DecidableEq

/-- The output record (the dict built per article; the multi-valued fields are
kept as lists here and joined with `"; "` only at CSV-rendering time). -/
structure Paper where
  pubmedID : Str
  title : Str
  publicationDate : Str
  nonAcademicAuthors : List Str
  companyAffiliations : List Str
  correspondingEmail : Str
deriving DecidableEq

/-- The affiliation loop: `if aff.text: affs.append(aff.text.strip())` — an
element whose text is missing or empty is dropped, the rest are stripped. -/
def stripAffs (affs : List (Option Str)) : List Str :=
  affs.filterMap fun t =>
    match t with
    | some s => if s.isEmpty then none else some (pyStrip s)
    | none => none

/-- One `authors_info` entry: `name = f"{forename} {lastname}".strip()` with
missing parts defaulting to the empty string. -/
def buildAuthorInfo (a : RawAuthor) : AuthorInfo :=
  { name := pyStrip (pyOr a.foreName [] ++ ' ' :: pyOr a.lastName [])
    affiliations := stripAffs a.affiliations }

/-- The `authors_info` list of one article. -/
def authorsInfo (art : RawArticle) : List AuthorInfo :=
  art.authors.map buildAuthorInfo

/-- `is_academic` of one author: any affiliation matches the academic set. -/
def author_isAcademic (a : AuthorInfo) : Bool :=
  a.affiliations.any fun aff => contains_keyword aff ACADEMIC_KEYWORDS

/-- The publication-date heuristics: `if year: f"{year}-{month}-{day}"` with
`month`/`day` already defaulted by `or "01"`, `elif medline: medline`, else
the initial empty string (also when there is no `PubDate` element). -/
def computePubDate : Option RawPubDate → Str
  | none => []
  | some node =>
    let month := pyOr node.month "01".data
    let day := pyOr node.day "01".data
    if truthy node.year then
      node.year.getD [] ++ "-".data ++ month ++ "-".data ++ day
    else if truthy node.medline then node.medline.getD []
    else []

/-- Lexicographic comparison of strings by code point, the order Python
`sorted` uses on strings. -/
def strLe : Str → Str → Bool
  | [], _ => true
  | _ :: _, [] => false
  | a :: as, b :: bs => if a < b then true else if a = b then strLe as bs else false

/-- Python `sorted(set(xs))`: the distinct elements in lexicographic order. -/
def py_sorted_set (xs : List Str) : List Str :=
  xs.dedup.mergeSort strLe

/-- The inner email loop over one author's affiliations: the first regex match
overwrites `email` and breaks; otherwise `email` is left unchanged. -/
def emailInner (affs : List Str) (email : Str) : Str :=
  match affs with
  | [] => email
  | aff :: rest =>
    match emailSearch aff with
    | some m => m
    | none => emailInner rest email

/-- The outer email loop over `authors_info`: after each author the loop
breaks as soon as `email` is non-empty (truthy). -/
def emailOuter (authors : List AuthorInfo) (email : Str) : Str :=
  match authors with
  | [] => email
  | a :: rest =>
    let email2 := emailInner a.affiliations email
    if email2.isEmpty then emailOuter rest email2 else email2

/-- The body of `extract_papers` for one `PubmedArticle`. -/
def extract_paper (art : RawArticle) : Paper :=
  let pmid := pyOr art.pmid []
  let title := pyOr art.articleTitle []
  let pub_date := computePubDate art.pubDate
  let authors_info := authorsInfo art
  let non_academic_authors := authors_info.filterMap fun a =>
    if !author_isAcademic a && !a.name.isEmpty then some a.name else none
  let company_affiliations := authors_info.flatMap fun a =>
    a.affiliations.filter fun aff => contains_keyword aff COMPANY_KEYWORDS
  { pubmedID := pmid
    title := title
    publicationDate := pub_date
    nonAcademicAuthors := py_sorted_set non_academic_authors
    companyAffiliations := py_sorted_set company_affiliations
    correspondingEmail := emailOuter authors_info [] }

/-- `extract_papers` over a whole batch: the `ParseError` of `ET.fromstring`
propagates; a successfully parsed batch is mapped record by record. -/
def extract_papersE (parsed : Except Str (List RawArticle)) :
    Except Str (List Paper) :=
  match parsed with
  | .error e => .error e
  | .ok arts => .ok (arts.map extract_paper)

/-- The observable outcome of one run of `main`: messages printed to the
diagnostic stream, the extracted papers, whether `output_csv` (the Report
Writer) was invoked, and whether the process terminated normally. -/
structure RunResult where
  diagnostics : List Str
  papers : List Paper
  reportCalled : Bool
  exitOk : Bool
deriving DecidableEq

/-- The notice `main` prints on an empty identifier list. -/
def noPapersMsg : Str := "No papers found for the query.".data

/-- The diagnostic the top-level handler prints for a non-HTTP exception. -/
def unexpectedErrMsg (e : Str) : Str := "Unexpected error: ".data ++ e

/-- The `try` body of `main` after `esearch`, over the abstracted fetch/parse
outcome: an empty identifier list short-circuits before `efetch`;
otherwise extraction runs and its exception, if any, reaches the generic
handler; debug printing is omitted (debug off). -/
def runMain (pmids : List Str) (parsed : Except Str (List RawArticle)) :
    RunResult :=
  if pmids.isEmpty then
    { diagnostics := [noPapersMsg], papers := [], reportCalled := false, exitOk := true }
  else
    match extract_papersE parsed with
    | .error e =>
      { diagnostics := [unexpectedErrMsg e], papers := [], reportCalled := false, exitOk := true }
    | .ok ps =>
      { diagnostics := [], papers := ps, reportCalled := true, exitOk := true }

/-- The claim-side shape predicate of C6: a ten-character numeric
`YYYY-MM-DD` date. -/
def isNumericDateShape : Str → Bool
  | [y1, y2, y3, y4, h1, m1, m2, h2, d1, d2] =>
    y1.isDigit && y2.isDigit && y3.isDigit && y4.isDigit && h1 == '-' &&
    m1.isDigit && m2.isDigit && h2 == '-' && d1.isDigit && d2.isDigit
  | _ => false

example : computePubDate (some ⟨some "2020".data, none, none, none⟩) = "2020-01-01".data := by decide
example : computePubDate (some ⟨none, none, none, some "2020 Spring".data⟩) = "2020 Spring".data := by decide
example : computePubDate none = [] := by decide
example : computePubDate (some ⟨some "2020".data, some "May".data, none, none⟩) = "2020-May-01".data := by decide
example : isNumericDateShape "2020-01-01".data = true := by decide
example : isNumericDateShape "2020-May-01".data = false := by decide
example : pyStrip "  Acme Inc ".data = "Acme Inc".data := by decide
example : buildAuthorInfo ⟨some "Doe".data, none, []⟩ = ⟨"Doe".data, []⟩ := by decide

/-! Helper lemmas. -/

theorem char_toNat_ofNat_valid {n : Nat} (h : n.isValidChar) :
    (Char.ofNat n).toNat = n := by
  unfold Char.ofNat
  rw [dif_pos h]
  rfl

/-- ASCII case folding: upper-casing first never changes the lower-cased
character. -/
theorem toLower_toUpper (c : Char) : c.toUpper.toLower = c.toLower := by
  unfold Char.toUpper
  by_cases h : c.toNat ≥ 97 ∧ c.toNat ≤ 122
  · rw [if_pos h]
    have hval : Nat.isValidChar (c.toNat - 32) := Or.inl (by omega)
    have h1 : (Char.ofNat (c.toNat - 32)).toNat = c.toNat - 32 :=
      char_toNat_ofNat_valid hval
    unfold Char.toLower
    rw [h1, if_pos (by omega), if_neg (by omega)]
    have h2 : c.toNat - 32 + 32 = c.toNat := by omega
    rw [h2, Char.ofNat_toNat]
  · rw [if_neg h]

theorem pyLower_asciiUpper (s : Str) : pyLower (asciiUpper s) = pyLower s := by
  unfold pyLower asciiUpper
  rw [List.map_map]
  exact List.map_congr_left fun c _ => toLower_toUpper c

theorem fullUpperChar_ascii {c : Char} (hc : c.toNat < 128) :
    fullUpperChar c = [c.toUpper] := by
  have h : ∀ d : Char, 128 ≤ d.toNat → c ≠ d := fun d hd he => by subst he; omega
  unfold fullUpperChar
  rw [if_neg (h _ (by decide)), if_neg (h _ (by decide)), if_neg (h _ (by decide)),
    if_neg (h _ (by decide)), if_neg (h _ (by decide)), if_neg (h _ (by decide)),
    if_neg (h _ (by decide)), if_neg (h _ (by decide))]

theorem pyUpperFull_ascii : ∀ {t : Str}, (∀ c, c ∈ t → c.toNat < 128) →
    pyUpperFull t = asciiUpper t
  | [], _ => rfl
  | c :: rest, h => by
    have hc : c.toNat < 128 := h c (by simp)
    have ih : pyUpperFull rest = asciiUpper rest :=
      pyUpperFull_ascii fun d hd => h d (by simp [hd])
    show fullUpperChar c ++ pyUpperFull rest = asciiUpper (c :: rest)
    rw [fullUpperChar_ascii hc, ih]
    rfl

theorem dropWhile_self (p : α → Bool) :
    ∀ l : List α, (l.dropWhile p).dropWhile p = l.dropWhile p
  | [] => rfl
  | a :: l => by
    by_cases h : p a
    · simp [List.dropWhile_cons, h, dropWhile_self p l]
    · simp [List.dropWhile_cons, h]

theorem dropWhile_eq_self_of_prefix {p : α → Bool} {x y : List α}
    (hx : x.dropWhile p = x) (hpre : y <+: x) : y.dropWhile p = y := by
  cases y with
  | nil => rfl
  | cons a t =>
    cases x with
    | nil => simp at hpre
    | cons b s =>
      obtain ⟨r, hr⟩ := hpre
      have hab : a = b := by
        have := congrArg (List.head? ·) hr
        simpa using this
      have hpb : p b = false := by
        by_contra hb
        have hb' : p b = true := by revert hb; cases p b <;> simp
        rw [List.dropWhile_cons, if_pos hb'] at hx
        have hlen : (s.dropWhile p).length ≤ s.length :=
          (List.dropWhile_suffix p).sublist.length_le
        have := congrArg List.length hx
        simp at this
        omega
      subst hab
      rw [List.dropWhile_cons, if_neg (by simp [hpb])]

theorem rstrip_prefixOf (l : Str) : rstrip l <+: l := by
  unfold rstrip
  conv => rhs; rw [← List.reverse_reverse l]
  exact List.reverse_prefix.mpr (List.dropWhile_suffix pyIsSpace)

theorem rstrip_idem (l : Str) : rstrip (rstrip l) = rstrip l := by
  unfold rstrip
  rw [List.reverse_reverse, dropWhile_self]

theorem pyStrip_idem (l : Str) : pyStrip (pyStrip l) = pyStrip l := by
  unfold pyStrip
  have hx : lstrip (rstrip (lstrip l)) = rstrip (lstrip l) := by
    unfold lstrip
    exact dropWhile_eq_self_of_prefix (dropWhile_self pyIsSpace l) (rstrip_prefixOf _)
  rw [hx, rstrip_idem]

/-- Non-empty strings are never dominated by any keyword match on the empty
string: `contains_keyword` on the empty string is false for both keyword
sets of the source (every keyword is non-empty). -/
theorem contains_keyword_nil_company :
    contains_keyword [] COMPANY_KEYWORDS = false := by decide

theorem strLe_trans : ∀ (x y z : Str),
    strLe x y = true → strLe y z = true → strLe x z = true
  | [], _, _, _, _ => rfl
  | _ :: _, [], _, hxy, _ => by simp [strLe] at hxy
  | _ :: _, _ :: _, [], _, hyz => by simp [strLe] at hyz
  | a :: as, b :: bs, c :: cs, hxy, hyz => by
    simp only [strLe] at hxy hyz ⊢
    by_cases hab : a < b
    · by_cases hbc : b < c
      · rw [if_pos (lt_trans hab hbc)]
      · rw [if_neg hbc] at hyz
        by_cases hbec : b = c
        · subst hbec; rw [if_pos hab]
        · rw [if_neg hbec] at hyz; exact absurd hyz (by simp)
    · rw [if_neg hab] at hxy
      by_cases habe : a = b
      · subst habe
        rw [if_pos rfl] at hxy
        by_cases hac : a < c
        · rw [if_pos hac]
        · rw [if_neg hac] at hyz ⊢
          by_cases hace : a = c
          · rw [if_pos hace] at hyz ⊢
            subst hace
            exact strLe_trans as bs cs hxy hyz
          · rw [if_neg hace] at hyz; exact absurd hyz (by simp)
      · rw [if_neg habe] at hxy; exact absurd hxy (by simp)

theorem strLe_total : ∀ (x y : Str), (strLe x y || strLe y x) = true
  | [], _ => by simp [strLe]
  | _ :: _, [] => by simp [strLe]
  | a :: as, b :: bs => by
    simp only [strLe]
    rcases lt_trichotomy a b with h | h | h
    · rw [if_pos h]; simp
    · subst h
      rw [if_neg (lt_irrefl a), if_pos rfl, if_neg (lt_irrefl a), if_pos rfl]
      simpa using strLe_total as bs
    · rw [if_pos h, if_neg (not_lt_of_gt h), if_neg (ne_of_gt h)]; simp

theorem mem_py_sorted_set {x : Str} {xs : List Str} :
    x ∈ py_sorted_set xs ↔ x ∈ xs := by
  unfold py_sorted_set
  rw [List.mem_mergeSort, List.mem_dedup]

theorem py_sorted_set_nodup (xs : List Str) : (py_sorted_set xs).Nodup :=
  (List.mergeSort_perm xs.dedup strLe).symm.nodup (List.nodup_dedup xs)

theorem py_sorted_set_sorted (xs : List Str) :
    (py_sorted_set xs).Pairwise (fun a b => strLe a b = true) :=
  List.sorted_mergeSort strLe_trans strLe_total xs.dedup

theorem matchEmailAt_ne_nil {l m : Str} (h : matchEmailAt l = some m) :
    m ≠ [] := by
  simp only [matchEmailAt] at h
  split at h
  · exact absurd h (by simp)
  · split at h
    · split at h
      · injection h with h
        subst h
        simp
      · exact absurd h (by simp)
    · exact absurd h (by simp)

theorem emailSearch_ne_nil : ∀ {l m : Str}, emailSearch l = some m → m ≠ []
  | [], _, h => absurd h (by simp [emailSearch])
  | c :: rest, m, h => by
    unfold emailSearch at h
    split at h
    · injection h with h
      subst h
      exact matchEmailAt_ne_nil (by assumption)
    · exact emailSearch_ne_nil h

/-- `emailSearch` reports the leftmost starting position at which the pattern
matches: every earlier starting position admits no match. -/
theorem emailSearch_leftmost : ∀ (s m : Str), emailSearch s = some m →
    ∃ i, matchEmailAt (s.drop i) = some m ∧
      ∀ j, j < i → matchEmailAt (s.drop j) = none
  | [], m, h => absurd h (by simp [emailSearch])
  | c :: rest, m, h => by
    rw [emailSearch] at h
    cases hat : matchEmailAt (c :: rest) with
    | some m2 =>
      rw [hat] at h
      injection h with h
      subst h
      exact ⟨0, hat, fun j hj => absurd hj (Nat.not_lt_zero j)⟩
    | none =>
      rw [hat] at h
      obtain ⟨i, hi, hlt⟩ := emailSearch_leftmost rest m h
      refine ⟨i + 1, by simpa using hi, fun j hj => ?_⟩
      cases j with
      | zero => simpa using hat
      | succ j => simpa using hlt j (by omega)

theorem emailInner_eq (affs : List Str) :
    emailInner affs [] = (affs.findSome? emailSearch).getD [] := by
  induction affs with
  | nil => rfl
  | cons aff rest ih =>
    rw [emailInner, List.findSome?_cons]
    cases h : emailSearch aff with
    | some m => simp
    | none => simpa using ih

theorem emailOuter_eq (authors : List AuthorInfo) :
    emailOuter authors [] =
      ((authors.flatMap fun a => a.affiliations).findSome? emailSearch).getD [] := by
  induction authors with
  | nil => rfl
  | cons a rest ih =>
    rw [emailOuter, List.flatMap_cons, List.findSome?_append]
    cases h : a.affiliations.findSome? emailSearch with
    | some m =>
      have hm : m.isEmpty = false := by
        obtain ⟨aff, -, haff⟩ := List.exists_of_findSome?_eq_some h
        simpa using emailSearch_ne_nil haff
      rw [emailInner_eq, h]
      simp [hm]
    | none =>
      rw [emailInner_eq, h]
      simpa using ih

/-! Field-level views of `extract_paper`. -/

theorem extract_pubmedID (art : RawArticle) :
    (extract_paper art).pubmedID = pyOr art.pmid [] := rfl

theorem extract_title (art : RawArticle) :
    (extract_paper art).title = pyOr art.articleTitle [] := rfl

theorem extract_publicationDate (art : RawArticle) :
    (extract_paper art).publicationDate = computePubDate art.pubDate := rfl

theorem extract_nonAcademicAuthors (art : RawArticle) :
    (extract_paper art).nonAcademicAuthors =
      py_sorted_set ((authorsInfo art).filterMap fun a =>
        if !author_isAcademic a && !a.name.isEmpty then some a.name else none) := rfl

theorem extract_companyAffiliations (art : RawArticle) :
    (extract_paper art).companyAffiliations =
      py_sorted_set ((authorsInfo art).flatMap fun a =>
        a.affiliations.filter fun aff =>
          contains_keyword aff COMPANY_KEYWORDS) := rfl

theorem extract_correspondingEmail (art : RawArticle) :
    (extract_paper art).correspondingEmail = emailOuter (authorsInfo art) [] := rfl

/-! The claims. -/

/-- C7, counterexample: full case mapping breaks the claimed invariance.
The text with the st-ligature U+FB06 matches no academic keyword, but its
Python upper-case is `INSTITUTE`, which matches `institute`; so
`isAcademic(T)` and `isAcademic(upper(T))` differ at this input. -/
theorem upper_invariant_counterexample :
    contains_keyword "inﬆitute".data ACADEMIC_KEYWORDS = false
    ∧ pyUpperFull "inﬆitute".data = "INSTITUTE".data
    ∧ contains_keyword (pyUpperFull "inﬆitute".data) ACADEMIC_KEYWORDS
        = true := by
  refine ⟨by decide, by decide, by decide⟩

/-- C7, amended: for every text consisting solely of ASCII characters,
keyword classification is case-insensitive: `isAcademic` gives the same
answer on the text and on its upper-cased form. (Full Unicode case mapping
can expand a non-ASCII character into keyword-matching ASCII letters and
break the equivalence.) -/
theorem contains_keyword_upper_invariant_ascii (t : Str)
    (h : ∀ c, c ∈ t → c.toNat < 128) :
    contains_keyword (pyUpperFull t) ACADEMIC_KEYWORDS =
      contains_keyword t ACADEMIC_KEYWORDS := by
  rw [pyUpperFull_ascii h]
  simp only [contains_keyword]
  rw [pyLower_asciiUpper]

/-- C7, witness: the amended theorem applied to a concrete ASCII text. -/
theorem upper_invariant_ascii_witness :
    contains_keyword (pyUpperFull "Dept of Biology, Harvard University".data)
        ACADEMIC_KEYWORDS =
      contains_keyword "Dept of Biology, Harvard University".data
        ACADEMIC_KEYWORDS :=
  contains_keyword_upper_invariant_ascii _ (by decide)

/-- C8: an empty identifier list short-circuits the pipeline: the
"no papers found" notice goes to the diagnostic stream, the Paper sequence is
empty, the run terminates normally, and the Report Writer is never invoked —
whatever the fetch/parse outcome would have been. -/
theorem empty_idlist_short_circuit (parsed : Except Str (List RawArticle)) :
    runMain [] parsed =
      { diagnostics := [noPapersMsg], papers := [], reportCalled := false,
        exitOk := true } := rfl

/-- C9: a fundamentally malformed batch surfaces as a parse failure for the
whole batch — the run ends with a diagnostic, no papers, and no Report Writer
call — while a batch that parses always extracts without raising, a record
with every optional sub-field missing included (it degrades to empty
fields). -/
theorem parse_failure_and_total_extraction :
    (∀ (p : Str) (ps : List Str) (e : Str),
        runMain (p :: ps) (.error e) =
          { diagnostics := [unexpectedErrMsg e], papers := [],
            reportCalled := false, exitOk := true })
    ∧ (∀ arts : List RawArticle,
        extract_papersE (.ok arts) = .ok (arts.map extract_paper))
    ∧ extract_paper
        { pmid := none, articleTitle := none, pubDate := none,
          authors := [⟨none, none, [none]⟩] } =
        { pubmedID := [], title := [], publicationDate := [],
          nonAcademicAuthors := [], companyAffiliations := [],
          correspondingEmail := [] } := by
  refine ⟨fun p ps e => rfl, fun arts => rfl, ?_⟩
  have hA : buildAuthorInfo ⟨none, none, [none]⟩ = ⟨[], []⟩ := by decide
  simp [extract_paper, authorsInfo, hA, py_sorted_set, emailOuter, emailInner,
    computePubDate, pyOr, author_isAcademic]

/-- C5: the publication date of every extracted Paper follows the source's
rule — a (truthy) year yields `"{year}-{month or 01}-{day or 01}"`, otherwise
a (truthy) medline free-text date is used verbatim, otherwise the date is
empty (also when the record has no date structure at all); in particular
year 2020 with no month and day yields `"2020-01-01"`. -/
theorem publication_date_formula (art : RawArticle) :
    (∀ node, art.pubDate = some node →
      ((truthy node.year = true →
          (extract_paper art).publicationDate =
            node.year.getD [] ++ "-".data ++ pyOr node.month "01".data ++
              "-".data ++ pyOr node.day "01".data)
       ∧ (truthy node.year = false → truthy node.medline = true →
            (extract_paper art).publicationDate = node.medline.getD [])
       ∧ (truthy node.year = false → truthy node.medline = false →
            (extract_paper art).publicationDate = [])))
    ∧ (art.pubDate = none → (extract_paper art).publicationDate = [])
    ∧ (art.pubDate = some ⟨some "2020".data, none, none, none⟩ →
        (extract_paper art).publicationDate = "2020-01-01".data) := by
  refine ⟨fun node hnode => ?_, fun hnone => ?_, fun h2020 => ?_⟩
  · rw [extract_publicationDate, hnode]
    refine ⟨fun hy => ?_, fun hy hm => ?_, fun hy hm => ?_⟩
    · simp [computePubDate, hy]
    · simp [computePubDate, hy, hm]
    · simp [computePubDate, hy, hm]
  · rw [extract_publicationDate, hnone]
    rfl
  · rw [extract_publicationDate, h2020]
    decide

/-- C6, counterexample: the claim says the date is always numeric
`YYYY-MM-DD`, verbatim medline text, or empty; but a record whose month
element holds the text `May` (no medline date present) yields
`"2020-May-01"`, which is none of the three. -/
theorem publication_date_shape_counterexample :
    (extract_paper
        { pmid := none, articleTitle := none,
          pubDate := some ⟨some "2020".data, some "May".data, none, none⟩,
          authors := [] }).publicationDate = "2020-May-01".data
    ∧ isNumericDateShape "2020-May-01".data = false
    ∧ "2020-May-01".data ≠ ([] : Str)
    ∧ (⟨some "2020".data, some "May".data, none, none⟩ : RawPubDate).medline
        = none := by
  refine ⟨?_, by decide, by decide, rfl⟩
  rw [extract_publicationDate]
  decide

/-- C6, amended: the publication date is one of exactly three shapes — the
hyphen-joined string `"{year}-{month}-{day}"` built verbatim from the
record's fields (month and day defaulting to `"01"`, numeric only when the
fields are numeric), the verbatim medline free text, or the empty string. -/
theorem publication_date_shapes_amended (art : RawArticle) :
    (∃ node, art.pubDate = some node ∧ truthy node.year = true ∧
        (extract_paper art).publicationDate =
          node.year.getD [] ++ "-".data ++ pyOr node.month "01".data ++
            "-".data ++ pyOr node.day "01".data)
    ∨ (∃ node, art.pubDate = some node ∧ truthy node.year = false ∧
        truthy node.medline = true ∧
        (extract_paper art).publicationDate = node.medline.getD [])
    ∨ (extract_paper art).publicationDate = [] := by
  rw [extract_publicationDate]
  cases hpd : art.pubDate with
  | none => exact Or.inr (Or.inr rfl)
  | some node =>
    by_cases hy : truthy node.year = true
    · exact Or.inl ⟨node, rfl, hy, by simp [computePubDate, hy]⟩
    · have hy' : truthy node.year = false := by simpa using hy
      by_cases hm : truthy node.medline = true
      · exact Or.inr (Or.inl ⟨node, rfl, hy', hm, by simp [computePubDate, hy', hm]⟩)
      · have hm' : truthy node.medline = false := by simpa using hm
        exact Or.inr (Or.inr (by simp [computePubDate, hy', hm']))

/-- C1: a name is in `nonAcademicAuthors` exactly when some author of the
record bears it, it is non-empty, and none of that author's affiliations
matches the academic keyword set; in particular every author with zero
affiliations and a non-empty name is included. -/
theorem nonacademic_membership_iff (art : RawArticle) (n : Str) :
    (n ∈ (extract_paper art).nonAcademicAuthors ↔
      ∃ a, a ∈ authorsInfo art ∧ a.name = n ∧ n ≠ [] ∧
        ∀ aff, aff ∈ a.affiliations →
          contains_keyword aff ACADEMIC_KEYWORDS = false)
    ∧ (∀ a, a ∈ authorsInfo art → a.affiliations = [] → a.name ≠ [] →
        a.name ∈ (extract_paper art).nonAcademicAuthors) := by
  have hmem : ∀ m : Str, m ∈ (extract_paper art).nonAcademicAuthors ↔
      ∃ a, a ∈ authorsInfo art ∧ a.name = m ∧ m ≠ [] ∧
        ∀ aff, aff ∈ a.affiliations →
          contains_keyword aff ACADEMIC_KEYWORDS = false := by
    intro m
    rw [extract_nonAcademicAuthors, mem_py_sorted_set, List.mem_filterMap]
    constructor
    · rintro ⟨a, ha, hif⟩
      by_cases hc : (!author_isAcademic a && !a.name.isEmpty) = true
      · rw [if_pos hc] at hif
        injection hif with hif
        obtain ⟨h1, h2⟩ := Bool.and_eq_true_iff.mp hc
        subst hif
        refine ⟨a, ha, rfl, by simpa using h2, fun aff haff => ?_⟩
        have hna : author_isAcademic a = false := by simpa using h1
        rw [author_isAcademic] at hna
        simpa using List.any_eq_false.mp hna aff haff
      · rw [if_neg hc] at hif
        exact absurd hif (by simp)
    · rintro ⟨a, ha, hname, hne, hall⟩
      refine ⟨a, ha, ?_⟩
      have h1 : author_isAcademic a = false := by
        rw [author_isAcademic]
        exact List.any_eq_false.mpr fun aff haff => by simp [hall aff haff]
      have h2 : a.name.isEmpty = false := by simp [hname, hne]
      rw [h1, h2]
      simp [hname]
  refine ⟨hmem n, fun a ha haffs hne => ?_⟩
  exact (hmem a.name).mpr ⟨a, ha, rfl, hne, by simp [haffs]⟩

/-- C2: a string is in `companyAffiliations` exactly when it is an affiliation
of some author of the record — academic or not — and matches the company
keyword set; the stored value is the affiliation text itself. -/
theorem company_affiliations_membership_iff (art : RawArticle) (x : Str) :
    x ∈ (extract_paper art).companyAffiliations ↔
      ∃ a, a ∈ authorsInfo art ∧ x ∈ a.affiliations ∧
        contains_keyword x COMPANY_KEYWORDS = true := by
  rw [extract_companyAffiliations, mem_py_sorted_set, List.mem_flatMap]
  constructor
  · rintro ⟨a, ha, hx⟩
    rw [List.mem_filter] at hx
    exact ⟨a, ha, hx.1, hx.2⟩
  · rintro ⟨a, ha, hx, hk⟩
    exact ⟨a, ha, List.mem_filter.mpr ⟨hx, hk⟩⟩

/-- C3: the corresponding email is the first `EMAIL_REGEX` match over authors
in source order and, per author, affiliations in source order (the regex
itself matching at the leftmost position inside a string), and it is empty
exactly when no affiliation of any author contains a match. -/
theorem corresponding_email_first_match (art : RawArticle) :
    ((extract_paper art).correspondingEmail =
      (((authorsInfo art).flatMap fun a => a.affiliations).findSome?
          emailSearch).getD [])
    ∧ ((extract_paper art).correspondingEmail = [] ↔
        ∀ a, a ∈ authorsInfo art → ∀ aff, aff ∈ a.affiliations →
          emailSearch aff = none)
    ∧ (∀ s m, emailSearch s = some m →
        ∃ i, matchEmailAt (s.drop i) = some m ∧
          ∀ j, j < i → matchEmailAt (s.drop j) = none) := by
  refine ⟨?_, ?_, emailSearch_leftmost⟩
  · rw [extract_correspondingEmail, emailOuter_eq]
  · rw [extract_correspondingEmail, emailOuter_eq]
    constructor
    · intro h a ha aff haff
      cases hf : ((authorsInfo art).flatMap fun a => a.affiliations).findSome?
          emailSearch with
      | some m =>
        rw [hf] at h
        obtain ⟨aff2, -, haff2⟩ := List.exists_of_findSome?_eq_some hf
        exact absurd (by simpa using h) (emailSearch_ne_nil haff2)
      | none =>
        exact List.findSome?_eq_none_iff.mp hf aff
          (List.mem_flatMap.mpr ⟨a, ha, haff⟩)
    · intro h
      have hf : ((authorsInfo art).flatMap fun a => a.affiliations).findSome?
          emailSearch = none :=
        List.findSome?_eq_none_iff.mpr fun aff haff => by
          obtain ⟨a, ha, haff2⟩ := List.mem_flatMap.mp haff
          exact h a ha aff haff2
      rw [hf]
      rfl

/-- C4: both aggregated fields of every Paper are duplicate-free and sorted
in lexicographic (code point) order. -/
theorem paper_sets_nodup_sorted (art : RawArticle) :
    (extract_paper art).nonAcademicAuthors.Nodup
    ∧ (extract_paper art).nonAcademicAuthors.Pairwise
        (fun a b => strLe a b = true)
    ∧ (extract_paper art).companyAffiliations.Nodup
    ∧ (extract_paper art).companyAffiliations.Pairwise
        (fun a b => strLe a b = true) := by
  rw [extract_nonAcademicAuthors, extract_companyAffiliations]
  exact ⟨py_sorted_set_nodup _, py_sorted_set_sorted _,
    py_sorted_set_nodup _, py_sorted_set_sorted _⟩

/-- C10: every affiliation string used for classification, email extraction
and storage is stripped (stripping it again changes nothing), affiliation
elements with missing or empty text are dropped entirely, and consequently
every entry of `companyAffiliations` is stripped and non-empty. -/
theorem affiliation_stripping (art : RawArticle) :
    (∀ a, a ∈ authorsInfo art → ∀ x, x ∈ a.affiliations → pyStrip x = x)
    ∧ (∀ x, x ∈ (extract_paper art).companyAffiliations →
        pyStrip x = x ∧ x ≠ [])
    ∧ (∀ affs : List (Option Str),
        stripAffs (none :: affs) = stripAffs affs
        ∧ stripAffs (some [] :: affs) = stripAffs affs) := by
  have hstripped : ∀ a, a ∈ authorsInfo art → ∀ x, x ∈ a.affiliations →
      pyStrip x = x := by
    intro a ha x hx
    rw [authorsInfo] at ha
    obtain ⟨raw, -, hraw⟩ := List.mem_map.mp ha
    subst hraw
    obtain ⟨o, -, ho⟩ := List.mem_filterMap.mp hx
    cases o with
    | none =>
      have ho' : (none : Option Str) = some x := ho
      exact absurd ho' (by simp)
    | some s =>
      have ho' : (if s.isEmpty = true then none else some (pyStrip s))
          = some x := ho
      by_cases hs : s.isEmpty = true
      · rw [if_pos hs] at ho'
        exact absurd ho' (by simp)
      · rw [if_neg hs] at ho'
        injection ho' with ho'
        rw [← ho', pyStrip_idem]
  refine ⟨hstripped, fun x hx => ?_, fun affs => ⟨rfl, rfl⟩⟩
  rw [extract_companyAffiliations, mem_py_sorted_set, List.mem_flatMap] at hx
  obtain ⟨a, ha, hxf⟩ := hx
  rw [List.mem_filter] at hxf
  refine ⟨hstripped a ha x hxf.1, fun hnil => ?_⟩
  rw [hnil] at hxf
  exact absurd hxf.2 (by rw [contains_keyword_nil_company]; simp)
